import Mathlib

/-!
Verification of the prediction-aggregation pipeline of the safari image
classifier (`config.py`, `image_processor.py`).

Modelling choices:
* Python strings are modelled as lists of code points (`List Nat`);
  `str.lower` is modelled as ASCII lowercasing, exact for ASCII data
  (all configuration keywords and labels considered here are ASCII).
* Python floats are modelled as exact rationals (`ℚ`); `np.mean` is exact
  division of the sum by the length.
* Python dicts are modelled as insertion-ordered association lists, which
  matches the guaranteed iteration order of `dict`.
-/

/-- A Python string as its sequence of code points. -/
abbrev PyStr := List Nat

/-- Code points of a Lean string literal, to write Python string data. -/
def pyStr (s : String) : PyStr := s.data.map Char.toNat

/-- Model of Python `str.lower` on one code point (ASCII range). -/
def lowerChar (c : Nat) : Nat := if 65 ≤ c ∧ c ≤ 90 then c + 32 else c

/-- Model of Python `str.lower` (ASCII). -/
def pyLower (s : PyStr) : PyStr := s.map lowerChar

/-- Test `isPre n h` : the code points `n` start the string `h`. -/
def isPre : PyStr → PyStr → Bool
  | [], _ => true
  | _ :: _, [] => false
  | a :: n, b :: h => a == b && isPre n h

/-- Model of Python `n in h` for strings: contiguous substring test. -/
def isSub (n : PyStr) : PyStr → Bool
  | [] => isPre n []
  | b :: h => isPre n (b :: h) || isSub n h

theorem isPre_iff (n h : PyStr) : isPre n h = true ↔ ∃ t, h = n ++ t := by
  induction n generalizing h with
  | nil => simp [isPre]
  | cons a n ih =>
    cases h with
    | nil => simp [isPre]
    | cons b h =>
      simp only [isPre, Bool.and_eq_true, beq_iff_eq, ih]
      constructor
      · rintro ⟨rfl, t, rfl⟩; exact ⟨t, rfl⟩
      · rintro ⟨t, ht⟩
        injection ht with h1 h2
        exact ⟨h1.symm, t, h2⟩

theorem isSub_iff (n h : PyStr) : isSub n h = true ↔ ∃ s t, h = s ++ n ++ t := by
  induction h with
  | nil =>
    simp only [isSub, isPre_iff]
    constructor
    · rintro ⟨t, ht⟩; exact ⟨[], t, ht⟩
    · rintro ⟨s, t, ht⟩
      rcases List.append_eq_nil.mp (List.append_eq_nil.mp ht.symm).1 with ⟨rfl, rfl⟩
      exact ⟨t, ht⟩
  | cons b h ih =>
    simp only [isSub, Bool.or_eq_true, isPre_iff, ih]
    constructor
    · rintro (⟨t, ht⟩ | ⟨s, t, rfl⟩)
      · exact ⟨[], t, by simpa using ht⟩
      · exact ⟨b :: s, t, rfl⟩
    · rintro ⟨s, t, ht⟩
      cases s with
      | nil => exact Or.inl ⟨t, by simpa using ht⟩
      | cons c s =>
        injection ht with h1 h2
        exact Or.inr ⟨s, t, h2⟩

theorem isSub_trans {a b c : PyStr} (h1 : isSub a b = true) (h2 : isSub b c = true) :
    isSub a c = true := by
  rcases (isSub_iff a b).mp h1 with ⟨s1, t1, hb⟩
  rcases (isSub_iff b c).mp h2 with ⟨s2, t2, hc⟩
  subst hb; subst hc
  exact (isSub_iff a _).mpr ⟨s2 ++ s1, t1 ++ t2, by simp⟩

theorem isSub_map (f : Nat → Nat) {n h : PyStr} (hs : isSub n h = true) :
    isSub (n.map f) (h.map f) = true := by
  rcases (isSub_iff n h).mp hs with ⟨s, t, rfl⟩
  exact (isSub_iff _ _).mpr ⟨s.map f, t.map f, by simp⟩

theorem lowerChar_idem (c : Nat) : lowerChar (lowerChar c) = lowerChar c := by
  unfold lowerChar
  by_cases h : 65 ≤ c ∧ c ≤ 90
  · rw [if_pos h, if_neg (by omega)]
  · rw [if_neg h, if_neg h]

theorem pyLower_idem (s : PyStr) : pyLower (pyLower s) = pyLower s := by
  simp only [pyLower, List.map_map]
  exact List.map_congr_left fun c _ => by simp [Function.comp, lowerChar_idem]

/-- A substring of a lowercased string is already lowercase. -/
theorem pyLower_eq_of_isSub {k l : PyStr} (h : isSub k (pyLower l) = true) :
    pyLower k = k := by
  rcases (isSub_iff k (pyLower l)).mp h with ⟨s, t, hst⟩
  have hk : ∀ c ∈ k, lowerChar c = c := by
    intro c hc
    have hmem : c ∈ pyLower l := by
      rw [hst]; simp [hc]
    rcases List.mem_map.mp hmem with ⟨d, _, rfl⟩
    exact lowerChar_idem d
  calc pyLower k = k.map id := List.map_congr_left fun c hc => hk c hc
  _ = k := List.map_id k

theorem isSub_pyLower_of_isSub {k l : PyStr} (h : isSub k (pyLower l) = true) :
    isSub (pyLower k) (pyLower l) = true := by
  rw [pyLower_eq_of_isSub h]; exact h

/-! ## Configuration data (`config.py`) -/

/-- Table `ANIMAL_CATEGORIES` from `config.py`: category name to keyword list. -/
def ANIMAL_CATEGORIES : List (PyStr × List PyStr) := [
  (pyStr "ostrich", [pyStr "ostrich", pyStr "common_ostrich", pyStr "African_ostrich"]),
  (pyStr "bird", [pyStr "bird", pyStr "crane", pyStr "peacock", pyStr "hornbill",
    pyStr "vulture", pyStr "eagle", pyStr "bustard", pyStr "stork"]),
  (pyStr "elephant", [pyStr "elephant", pyStr "African_elephant", pyStr "Indian_elephant",
    pyStr "tusker"]),
  (pyStr "monkey", [pyStr "monkey", pyStr "macaque", pyStr "baboon", pyStr "chimpanzee",
    pyStr "gorilla", pyStr "orangutan", pyStr "langur", pyStr "colobus"]),
  (pyStr "giraffe", [pyStr "giraffe", pyStr "reticulated_giraffe"]),
  (pyStr "zebra", [pyStr "zebra", pyStr "plains_zebra", pyStr "Grevy_zebra"]),
  (pyStr "lion", [pyStr "lion", pyStr "male_lion", pyStr "lioness", pyStr "African_lion"]),
  (pyStr "lion_cub", [pyStr "lion_cub", pyStr "cub", pyStr "young_lion", pyStr "cat_baby"]),
  (pyStr "leopard", [pyStr "leopard", pyStr "spotted_leopard"]),
  (pyStr "cheetah", [pyStr "cheetah", pyStr "spotted_cat", pyStr "running_cat"]),
  (pyStr "buffalo", [pyStr "buffalo", pyStr "African_buffalo", pyStr "water_buffalo",
    pyStr "cape_buffalo"]),
  (pyStr "antelope", [pyStr "antelope", pyStr "gazelle", pyStr "impala", pyStr "kudu",
    pyStr "springbok", pyStr "gemsbok", pyStr "oryx"]),
  (pyStr "wildebeest", [pyStr "wildebeest", pyStr "gnu", pyStr "blue_wildebeest"]),
  (pyStr "hippopotamus", [pyStr "hippopotamus", pyStr "hippo", pyStr "river_horse"]),
  (pyStr "crocodile", [pyStr "crocodile", pyStr "Nile_crocodile", pyStr "alligator"]),
  (pyStr "hyena", [pyStr "hyena", pyStr "spotted_hyena", pyStr "striped_hyena"])]

/-- Table `LANDSCAPE_CATEGORIES` from `config.py`. -/
def LANDSCAPE_CATEGORIES : List (PyStr × List PyStr) := [
  (pyStr "river", [pyStr "river", pyStr "stream", pyStr "waterfall", pyStr "waterway",
    pyStr "creek", pyStr "rapids"]),
  (pyStr "savannah", [pyStr "savannah", pyStr "grassland", pyStr "plain", pyStr "prairie",
    pyStr "veldt", pyStr "steppe"]),
  (pyStr "forest", [pyStr "forest", pyStr "woodland", pyStr "jungle", pyStr "trees",
    pyStr "rainforest", pyStr "grove"]),
  (pyStr "bush", [pyStr "bush", pyStr "shrubland", pyStr "thicket", pyStr "scrub",
    pyStr "brush", pyStr "undergrowth"]),
  (pyStr "mountain", [pyStr "mountain", pyStr "hill", pyStr "cliff", pyStr "ridge",
    pyStr "peak", pyStr "highland"]),
  (pyStr "wetland", [pyStr "wetland", pyStr "marsh", pyStr "swamp", pyStr "bog",
    pyStr "fen", pyStr "mangrove"]),
  (pyStr "desert", [pyStr "desert", pyStr "dune", pyStr "sand", pyStr "arid",
    pyStr "wasteland"]),
  (pyStr "lake", [pyStr "lake", pyStr "pond", pyStr "reservoir", pyStr "lagoon",
    pyStr "water_body"]),
  (pyStr "valley", [pyStr "valley", pyStr "gorge", pyStr "ravine", pyStr "canyon",
    pyStr "depression"])]

/-- Table `CONFIDENCE_THRESHOLDS` from `config.py` (floats as exact rationals). -/
def CONFIDENCE_THRESHOLDS : List (PyStr × ℚ) := [
  (pyStr "lion_cub", 3/10), (pyStr "bird", 2/5),
  (pyStr "default", 7/20), (pyStr "landscape", 3/20)]

/-! ## Python dict operations on insertion-ordered association lists -/

/-- Python `d[k]` / `d.get(k)`: first (and, keys being unique, only) binding. -/
def dictGet? {α : Type} (d : List (PyStr × α)) (k : PyStr) : Option α :=
  match d with
  | [] => none
  | kv :: t => if kv.1 == k then some kv.2 else dictGet? t k

/-- Python `d.get(k, v)`. -/
def dictGetD {α : Type} (d : List (PyStr × α)) (k : PyStr) (v : α) : α :=
  (dictGet? d k).getD v

/-- Model of `pred_scores[category].append(conf)` together with the creation of
the entry on first use: appends `v` to the list bound to `k`, creating the
binding `k ↦ [v]` at the end of the dict when `k` is absent. -/
def dictAppend (d : List (PyStr × List ℚ)) (k : PyStr) (v : ℚ) : List (PyStr × List ℚ) :=
  match d with
  | [] => [(k, [v])]
  | kv :: t => if kv.1 == k then (kv.1, kv.2 ++ [v]) :: t else kv :: dictAppend t k v

/-! ## The aggregation pipeline (`SafariImageProcessor._predict_animal`) -/

/-- One raw model prediction: (raw label, confidence). -/
abbrev Pred := PyStr × ℚ

/-- A category map: list of (category name, keyword list). -/
abbrev CatMap := List (PyStr × List PyStr)

/-- Test `any(similar in label.lower() for similar in similar_labels)`. -/
def catMatches (kws : List PyStr) (label : PyStr) : Bool :=
  kws.any fun k => isSub k (pyLower label)

/-- The inner category loop of the aggregation: record one prediction into
`pred_scores`, appending its confidence to every matching category. -/
def recordPred (cats : CatMap) (ps : List (PyStr × List ℚ)) (p : Pred) :
    List (PyStr × List ℚ) :=
  cats.foldl (fun ps2 c => if catMatches c.2 p.1 then dictAppend ps2 c.1 p.2 else ps2) ps

/-- The `pred_scores` dict built from all combined raw predictions. -/
def predScores (cats : CatMap) (preds : List Pred) : List (PyStr × List ℚ) :=
  preds.foldl (recordPred cats) []

/-- Insert into a descending-sorted list. -/
def insDesc (x : ℚ) : List ℚ → List ℚ
  | [] => [x]
  | y :: t => if y ≤ x then x :: y :: t else y :: insDesc x t

/-- Model of `sorted(scores, reverse=True)`. -/
def sortDesc (l : List ℚ) : List ℚ := l.foldr insDesc []

/-- Model of `np.mean`, exact on rationals. -/
def listMean (l : List ℚ) : ℚ := l.sum / l.length

/-- Dict `final_predictions`: for each category of `pred_scores`, in dict order, the
mean of the top 3 scores (all of them when fewer than 3 exist); the
`if top_scores:` guard skips empty score lists. -/
def finalPredictions (ps : List (PyStr × List ℚ)) : List (PyStr × ℚ) :=
  ps.filterMap fun c =>
    if ((sortDesc c.2).take 3).isEmpty then none
    else some (c.1, listMean ((sortDesc c.2).take 3))

/-- One comparison step of Python `max` with `key=lambda x: x[1]`: the
current best is replaced only on strictly greater key. -/
def stepMax (b y : PyStr × ℚ) : PyStr × ℚ := if b.2 < y.2 then y else b

/-- Python `max(items, key=lambda x: x[1])`: first item of maximal score. -/
def pyMax (l : List (PyStr × ℚ)) : Option (PyStr × ℚ) :=
  match l with
  | [] => none
  | x :: t => some (t.foldl stepMax x)

/-- The aggregation core of `_predict_animal`: from the combined raw
predictions to the final `(category, confidence)` decision. -/
def predictAnimal (cats : CatMap) (preds : List Pred) : Option PyStr × ℚ :=
  match pyMax (finalPredictions (predScores cats preds)) with
  | some c => (some c.1, c.2)
  | none => (none, 0)

/-! ## Association-list lemmas -/

theorem dictGet?_dictAppend_self (d : List (PyStr × List ℚ)) (k : PyStr) (v : ℚ) :
    dictGet? (dictAppend d k v) k = some ((dictGet? d k).getD [] ++ [v]) := by
  induction d with
  | nil => simp [dictAppend, dictGet?]
  | cons kv t ih =>
    by_cases h : kv.1 = k
    · simp [dictAppend, dictGet?, h]
    · simp [dictAppend, dictGet?, h, ih]

theorem dictGet?_dictAppend_ne (d : List (PyStr × List ℚ)) {k k2 : PyStr} (v : ℚ)
    (h : k2 ≠ k) : dictGet? (dictAppend d k v) k2 = dictGet? d k2 := by
  have hne : ¬ k = k2 := fun hh => h hh.symm
  induction d with
  | nil => simp [dictAppend, dictGet?, hne]
  | cons kv t ih =>
    by_cases h1 : kv.1 = k
    · simp [dictAppend, dictGet?, h1, hne]
    · simp [dictAppend, dictGet?, h1, ih]

theorem mem_keys_dictAppend {d : List (PyStr × List ℚ)} {k x : PyStr} {v : ℚ} :
    x ∈ (dictAppend d k v).map Prod.fst ↔ x ∈ d.map Prod.fst ∨ x = k := by
  induction d with
  | nil => simp [dictAppend]
  | cons kv t ih =>
    by_cases h : kv.1 = k
    · subst h
      simp only [dictAppend, beq_self_eq_true, if_true, List.map_cons, List.mem_cons]
      tauto
    · simp only [dictAppend, beq_iff_eq, h, if_false]
      simp only [List.map_cons, List.mem_cons, ih]
      tauto

theorem nodup_keys_dictAppend {d : List (PyStr × List ℚ)} (k : PyStr) (v : ℚ)
    (h : (d.map Prod.fst).Nodup) : ((dictAppend d k v).map Prod.fst).Nodup := by
  induction d with
  | nil => simp [dictAppend]
  | cons kv t ih =>
    simp only [List.map_cons, List.nodup_cons] at h
    by_cases h1 : kv.1 = k
    · simpa [dictAppend, h1, List.nodup_cons] using h
    · simp only [dictAppend, beq_iff_eq, h1, if_false, List.map_cons, List.nodup_cons]
      refine ⟨fun hmem => ?_, ih h.2⟩
      rcases mem_keys_dictAppend.mp hmem with hx | hx
      · exact h.1 hx
      · exact h1 hx

/-- Looking up a binding of a dict with distinct keys. -/
theorem dictGet?_eq_of_mem {d : List (PyStr × List ℚ)} {k : PyStr} {v : List ℚ}
    (hmem : (k, v) ∈ d) (hnd : (d.map Prod.fst).Nodup) : dictGet? d k = some v := by
  induction d with
  | nil => simp at hmem
  | cons kv t ih =>
    simp only [List.map_cons, List.nodup_cons] at hnd
    rcases List.mem_cons.mp hmem with rfl | hmem2
    · simp [dictGet?]
    · have hk : ¬ kv.1 = k := by
        intro hh
        exact hnd.1 (hh ▸ List.mem_map.mpr ⟨(k, v), hmem2, rfl⟩)
      simp [dictGet?, hk, ih hmem2 hnd.2]

/-! ## Characterization of `pred_scores` -/

/-- The confidences of the predictions matching a keyword list, in input order:
what the spec calls the matching confidences of a category. -/
def matchedConfs (kws : List PyStr) (preds : List Pred) : List ℚ :=
  (preds.filter fun p => catMatches kws p.1).map fun p => p.2

/-- Extension of an optional binding by a batch of appended values. -/
def optExtend (o : Option (List ℚ)) (l : List ℚ) : Option (List ℚ) :=
  match o, l with
  | none, [] => none
  | none, l => some l
  | some v, l => some (v ++ l)

theorem optExtend_nil (o : Option (List ℚ)) : optExtend o [] = o := by
  cases o <;> simp [optExtend]

theorem recordPred_lookup_of_not_mem (cats : CatMap) (ps : List (PyStr × List ℚ))
    (p : Pred) {k : PyStr} (h : k ∉ cats.map Prod.fst) :
    dictGet? (recordPred cats ps p) k = dictGet? ps k := by
  induction cats generalizing ps with
  | nil => rfl
  | cons c cats ih =>
    simp only [List.map_cons, List.mem_cons] at h
    push_neg at h
    simp only [recordPred, List.foldl_cons]
    rw [show (cats.foldl
        (fun ps2 c2 => if catMatches c2.2 p.1 then dictAppend ps2 c2.1 p.2 else ps2)
        (if catMatches c.2 p.1 then dictAppend ps c.1 p.2 else ps)) = recordPred cats
        (if catMatches c.2 p.1 then dictAppend ps c.1 p.2 else ps) p from rfl]
    rw [ih _ h.2]
    split
    · exact dictGet?_dictAppend_ne ps p.2 h.1
    · rfl

theorem recordPred_lookup (cats : CatMap) (ps : List (PyStr × List ℚ)) (p : Pred)
    {cat : PyStr} {kws : List PyStr} (hnd : (cats.map Prod.fst).Nodup)
    (hmem : (cat, kws) ∈ cats) :
    dictGet? (recordPred cats ps p) cat =
      if catMatches kws p.1 then some ((dictGet? ps cat).getD [] ++ [p.2])
      else dictGet? ps cat := by
  induction cats generalizing ps with
  | nil => simp at hmem
  | cons c cats ih =>
    simp only [List.map_cons, List.nodup_cons] at hnd
    simp only [recordPred, List.foldl_cons]
    rw [show (cats.foldl
        (fun ps2 c2 => if catMatches c2.2 p.1 then dictAppend ps2 c2.1 p.2 else ps2)
        (if catMatches c.2 p.1 then dictAppend ps c.1 p.2 else ps)) = recordPred cats
        (if catMatches c.2 p.1 then dictAppend ps c.1 p.2 else ps) p from rfl]
    rcases List.mem_cons.mp hmem with rfl | hmem2
    · have hnot : (cat, kws).1 ∉ cats.map Prod.fst := hnd.1
      rw [recordPred_lookup_of_not_mem cats _ p hnot]
      split
      · exact dictGet?_dictAppend_self ps cat p.2
      · rfl
    · have hne : c.1 ≠ cat := by
        intro hh
        exact hnd.1 (hh ▸ List.mem_map.mpr ⟨(cat, kws), hmem2, rfl⟩)
      rw [ih _ hnd.2 hmem2]
      have hbase : dictGet? (if catMatches c.2 p.1 then dictAppend ps c.1 p.2 else ps) cat
          = dictGet? ps cat := by
        split
        · exact dictGet?_dictAppend_ne ps p.2 hne.symm
        · rfl
      rw [hbase]

theorem foldl_recordPred_lookup (cats : CatMap) {cat : PyStr} {kws : List PyStr}
    (hnd : (cats.map Prod.fst).Nodup) (hmem : (cat, kws) ∈ cats)
    (preds : List Pred) (acc : List (PyStr × List ℚ)) :
    dictGet? (preds.foldl (recordPred cats) acc) cat =
      optExtend (dictGet? acc cat) (matchedConfs kws preds) := by
  induction preds generalizing acc with
  | nil => simp [matchedConfs, optExtend_nil]
  | cons p preds ih =>
    simp only [List.foldl_cons]
    rw [ih]
    rw [recordPred_lookup cats acc p hnd hmem]
    by_cases hm : catMatches kws p.1 = true
    · simp only [matchedConfs, List.filter_cons, hm, if_true, List.map_cons]
      cases dictGet? acc cat <;> simp [optExtend, matchedConfs]
    · simp [matchedConfs, List.filter_cons, hm]

/-- For every category of the map, `pred_scores` binds exactly the matching
confidences, in input order; a category with no match is absent. -/
theorem dictGet?_predScores (cats : CatMap) {cat : PyStr} {kws : List PyStr}
    (hnd : (cats.map Prod.fst).Nodup) (hmem : (cat, kws) ∈ cats) (preds : List Pred) :
    dictGet? (predScores cats preds) cat =
      if matchedConfs kws preds = [] then none else some (matchedConfs kws preds) := by
  rw [predScores, foldl_recordPred_lookup cats hnd hmem]
  show optExtend none _ = _
  cases h : matchedConfs kws preds <;> simp [optExtend]

theorem mem_keys_recordPred {cats : CatMap} {ps : List (PyStr × List ℚ)} {p : Pred}
    {k : PyStr} (h : k ∈ (recordPred cats ps p).map Prod.fst) :
    k ∈ ps.map Prod.fst ∨ k ∈ cats.map Prod.fst := by
  induction cats generalizing ps with
  | nil => exact Or.inl h
  | cons c cats ih =>
    simp only [recordPred, List.foldl_cons] at h
    have hconv : k ∈ (recordPred cats
        (if catMatches c.2 p.1 then dictAppend ps c.1 p.2 else ps) p).map Prod.fst := h
    rcases ih hconv with h2 | h2
    · by_cases hm : catMatches c.2 p.1 = true
      · rw [if_pos hm] at h2
        rcases mem_keys_dictAppend.mp h2 with h3 | rfl
        · exact Or.inl h3
        · exact Or.inr (by simp)
      · rw [if_neg hm] at h2
        exact Or.inl h2
    · exact Or.inr (by simp [h2])

theorem nodup_keys_recordPred {cats : CatMap} {ps : List (PyStr × List ℚ)} (p : Pred)
    (h : (ps.map Prod.fst).Nodup) : ((recordPred cats ps p).map Prod.fst).Nodup := by
  induction cats generalizing ps with
  | nil => exact h
  | cons c cats ih =>
    simp only [recordPred, List.foldl_cons]
    apply ih
    split
    · exact nodup_keys_dictAppend c.1 p.2 h
    · exact h

theorem predScores_keys_nodup (cats : CatMap) (preds : List Pred) :
    ((predScores cats preds).map Prod.fst).Nodup := by
  suffices hgen : ∀ acc : List (PyStr × List ℚ), (acc.map Prod.fst).Nodup →
      ((preds.foldl (recordPred cats) acc).map Prod.fst).Nodup from hgen [] (by simp)
  induction preds with
  | nil => exact fun acc h => h
  | cons p preds ih => exact fun acc h => ih _ (nodup_keys_recordPred p h)

theorem predScores_keys_sub (cats : CatMap) (preds : List Pred) {k : PyStr}
    (h : k ∈ (predScores cats preds).map Prod.fst) : k ∈ cats.map Prod.fst := by
  have hgen : ∀ (preds2 : List Pred) (acc : List (PyStr × List ℚ)),
      k ∈ (preds2.foldl (recordPred cats) acc).map Prod.fst →
      k ∈ acc.map Prod.fst ∨ k ∈ cats.map Prod.fst := by
    intro preds2
    induction preds2 with
    | nil => exact fun acc h2 => Or.inl h2
    | cons p preds2 ih =>
      intro acc h2
      simp only [List.foldl_cons] at h2
      rcases ih _ h2 with h3 | h3
      · exact mem_keys_recordPred h3
      · exact Or.inr h3
  rcases hgen preds [] h with h2 | h2
  · simp at h2
  · exact h2

/-- Every entry of `pred_scores` belongs to a category of the map and holds
exactly that category's matching confidences, which are nonempty. -/
theorem mem_predScores (cats : CatMap) (hnd : (cats.map Prod.fst).Nodup)
    {preds : List Pred} {cat : PyStr} {scores : List ℚ}
    (h : (cat, scores) ∈ predScores cats preds) :
    ∃ kws, (cat, kws) ∈ cats ∧ scores = matchedConfs kws preds ∧ scores ≠ [] := by
  have hkey : cat ∈ (predScores cats preds).map Prod.fst :=
    List.mem_map.mpr ⟨_, h, rfl⟩
  rcases List.mem_map.mp (predScores_keys_sub cats preds hkey) with ⟨c, hc, hfst⟩
  have hcm : (cat, c.2) ∈ cats := by
    have : c = (cat, c.2) := by
      cases c
      simp only at hfst
      simp [hfst]
    exact this ▸ hc
  have hget : dictGet? (predScores cats preds) cat = some scores :=
    dictGet?_eq_of_mem h (predScores_keys_nodup cats preds)
  rw [dictGet?_predScores cats hnd hcm preds] at hget
  by_cases hnil : matchedConfs c.2 preds = []
  · rw [if_pos hnil] at hget
    exact absurd hget (by simp)
  · rw [if_neg hnil] at hget
    have hsc : matchedConfs c.2 preds = scores := Option.some_injective _ hget
    subst hsc
    exact ⟨c.2, hcm, rfl, hnil⟩

/-! ## Sorting lemmas for `sorted(scores, reverse=True)` -/

theorem insDesc_perm (x : ℚ) (l : List ℚ) : (insDesc x l).Perm (x :: l) := by
  induction l with
  | nil => exact List.Perm.refl _
  | cons y t ih =>
    simp only [insDesc]
    split
    · exact List.Perm.refl _
    · exact (List.Perm.cons y ih).trans (List.Perm.swap x y t)

theorem sortDesc_perm (l : List ℚ) : (sortDesc l).Perm l := by
  induction l with
  | nil => exact List.Perm.refl _
  | cons x t ih =>
    exact (insDesc_perm x (sortDesc t)).trans (List.Perm.cons x ih)

theorem insDesc_sorted (x : ℚ) {l : List ℚ}
    (h : l.Pairwise fun a b => b ≤ a) :
    (insDesc x l).Pairwise fun a b => b ≤ a := by
  induction l with
  | nil => simp [insDesc]
  | cons y t ih =>
    rcases List.pairwise_cons.mp h with ⟨hy, ht⟩
    simp only [insDesc]
    split
    · rename_i hxy
      refine List.pairwise_cons.mpr ⟨?_, h⟩
      intro b hb
      rcases List.mem_cons.mp hb with rfl | hb2
      · exact hxy
      · exact le_trans (hy b hb2) hxy
    · rename_i hxy
      push_neg at hxy
      refine List.pairwise_cons.mpr ⟨?_, ih ht⟩
      intro b hb
      have hb2 : b ∈ x :: t := (insDesc_perm x t).mem_iff.mp hb
      rcases List.mem_cons.mp hb2 with rfl | hb3
      · exact le_of_lt hxy
      · exact hy b hb3

theorem sortDesc_sorted (l : List ℚ) : (sortDesc l).Pairwise fun a b => b ≤ a := by
  induction l with
  | nil => simp [sortDesc]
  | cons x t ih => exact insDesc_sorted x ih

/-! ## Mean bounds -/

theorem listMean_nonneg {l : List ℚ} (h : ∀ x ∈ l, 0 ≤ x) : 0 ≤ listMean l := by
  apply div_nonneg (List.sum_nonneg h)
  positivity

theorem listMean_le_one {l : List ℚ} (hne : l ≠ []) (h : ∀ x ∈ l, x ≤ 1) :
    listMean l ≤ 1 := by
  have hlen : (0:ℚ) < l.length := by
    exact_mod_cast List.length_pos.mpr hne
  rw [listMean, div_le_one hlen]
  have hs := List.sum_le_card_nsmul l 1 h
  simpa using hs

/-! ## Threshold gate and per-image driver (`process_single_image`) -/

/-- Lookup `CONFIDENCE_THRESHOLDS.get(animal_name, CONFIDENCE_THRESHOLDS['default'])`.
The `'default'` binding is present in the configuration, so the final
fallback value `0` of the model is never reached. -/
def animalThreshold (animal : PyStr) : ℚ :=
  dictGetD CONFIDENCE_THRESHOLDS animal (dictGetD CONFIDENCE_THRESHOLDS (pyStr "default") 0)

/-- The gate `if animal_name and confidence > threshold` of
`process_single_image`: `None` (and the empty string, which no category name
is) is falsy in Python. -/
def thresholdGate (animal : Option PyStr) (conf : ℚ) : Bool :=
  match animal with
  | none => false
  | some a => animalThreshold a < conf

/-- The result record built by `process_single_image`, with the file-system
effects of the accepted branch (rename, metadata write) recorded as flags. -/
structure ImageOutcome where
  success : Bool
  newNameAssigned : Bool
  animal : Option PyStr
  confidence : Option ℚ
  landscape : Option (List PyStr)
  error : Option PyStr
  renamed : Bool
  metadataWritten : Bool
deriving DecidableEq

/-- The decision flow of `process_single_image` after the two predictors have
run: backup failure returns early; otherwise the gate decides between the
rename/tagging branch and the `"Low confidence prediction"` rejection. -/
def processSingleImage (backupOk : Bool) (animal : Option PyStr) (conf : ℚ)
    (landscape : List PyStr) : ImageOutcome :=
  if backupOk then
    if thresholdGate animal conf then
      ⟨true, true, animal, some conf, some landscape, none, true, true⟩
    else
      ⟨false, false, animal, some conf, some landscape,
        some (pyStr "Low confidence prediction"), false, false⟩
  else
    ⟨false, false, none, none, none, some (pyStr "Backup failed"), false, false⟩

/-! ## Landscape features (`_predict_landscape`) -/

/-- Value `CONFIDENCE_THRESHOLDS['landscape']`. -/
def landscapeThreshold : ℚ := dictGetD CONFIDENCE_THRESHOLDS (pyStr "landscape") 0

/-- One category check of `_predict_landscape`: append the category when a
keyword occurs in the lowered label, the confidence strictly exceeds the
landscape threshold, and the category was not already detected. -/
def landscapeStep (p : Pred) (fs : List PyStr) (c : PyStr × List PyStr) : List PyStr :=
  if catMatches c.2 p.1 then
    if landscapeThreshold < p.2 ∧ c.1 ∉ fs then fs ++ [c.1] else fs
  else fs

/-- The feature loop of `_predict_landscape` over all predictions. -/
def predictLandscape (lcats : CatMap) (preds : List Pred) : List PyStr :=
  preds.foldl (fun feats p => lcats.foldl (landscapeStep p) feats) []

/-! ## Classifier failure control flow of `_predict_animal` -/

/-- The classifier loop of `_predict_animal`: each entry is one classifier's
decoded predictions, `none` standing for a raised exception.  The loop
extends `predictions_combined` classifier by classifier and an exception
anywhere escapes the loop. -/
def gatherPredictions : List (Option (List Pred)) → Option (List Pred)
  | [] => some []
  | none :: _ => none
  | some ps :: t => (gatherPredictions t).map fun r => ps ++ r

/-- Model of `_predict_animal` including its `try ... except` wrapper: when any
classifier raises, the whole function returns `(None, 0.0)`. -/
def predictAnimalRuns (cats : CatMap) (runs : List (Option (List Pred))) :
    Option PyStr × ℚ :=
  match gatherPredictions runs with
  | some preds => predictAnimal cats preds
  | none => (none, 0)

/-! ## First-argmax characterization of Python `max` -/

/-- The first element of maximal second component: argmax with ties broken by
the earliest position in the list. -/
def firstMax (l : List (PyStr × ℚ)) : Option (PyStr × ℚ) :=
  l.find? fun x => l.all fun y => decide (y.2 ≤ x.2)

theorem foldMax_spec (t : List (PyStr × ℚ)) (b : PyStr × ℚ) :
    (t.foldl stepMax b = b ∧ ∀ y ∈ t, y.2 ≤ b.2) ∨
    ∃ t1 m t2, t = t1 ++ m :: t2 ∧ t.foldl stepMax b = m ∧ b.2 < m.2 ∧
      (∀ y ∈ t1, y.2 < m.2) ∧ ∀ y ∈ t2, y.2 ≤ m.2 := by
  induction t generalizing b with
  | nil => exact Or.inl ⟨rfl, by simp⟩
  | cons y t ih =>
    simp only [List.foldl_cons]
    by_cases hy : b.2 < y.2
    · have hstep : stepMax b y = y := if_pos hy
      rw [hstep]
      rcases ih y with ⟨hm, hall⟩ | ⟨t1, m, t2, ht, hm, hbm, h1, h2⟩
      · rw [hm]
        exact Or.inr ⟨[], y, t, by simp, rfl, hy, by simp, hall⟩
      · refine Or.inr ⟨y :: t1, m, t2, by simp [ht], hm, lt_trans hy hbm, ?_, h2⟩
        intro z hz
        rcases List.mem_cons.mp hz with rfl | hz2
        · exact hbm
        · exact h1 z hz2
    · have hstep : stepMax b y = b := if_neg hy
      rw [hstep]
      push_neg at hy
      rcases ih b with ⟨hm, hall⟩ | ⟨t1, m, t2, ht, hm, hbm, h1, h2⟩
      · refine Or.inl ⟨hm, ?_⟩
        intro z hz
        rcases List.mem_cons.mp hz with rfl | hz2
        · exact hy
        · exact hall z hz2
      · refine Or.inr ⟨y :: t1, m, t2, by simp [ht], hm, hbm, ?_, h2⟩
        intro z hz
        rcases List.mem_cons.mp hz with rfl | hz2
        · exact lt_of_le_of_lt hy hbm
        · exact h1 z hz2

theorem find?_pre_none {α : Type} (p : α → Bool) (pre : List α) (m : α) (post : List α)
    (hpre : ∀ y ∈ pre, p y = false) (hm : p m = true) :
    List.find? p (pre ++ m :: post) = some m := by
  induction pre with
  | nil => simp [List.find?_cons, hm]
  | cons a pre ih =>
    have ha : p a = false := hpre a (by simp)
    simp only [List.cons_append, List.find?_cons, ha]
    exact ih fun y hy => hpre y (by simp [hy])

theorem firstMax_eq_of_split (x m : PyStr × ℚ) (t1 t2 : List (PyStr × ℚ))
    (hx : x.2 < m.2) (h1 : ∀ y ∈ t1, y.2 < m.2) (h2 : ∀ y ∈ t2, y.2 ≤ m.2) :
    firstMax (x :: (t1 ++ m :: t2)) = some m := by
  have hform : x :: (t1 ++ m :: t2) = (x :: t1) ++ (m :: t2) := by simp
  unfold firstMax
  rw [hform]
  apply find?_pre_none
  · intro y hy
    apply Bool.eq_false_iff.mpr
    intro hcon
    have hall := List.all_eq_true.mp hcon
    have hmm : m.2 ≤ y.2 := by
      have := hall m (by simp)
      simpa using this
    rcases List.mem_cons.mp hy with rfl | hy2
    · exact absurd (lt_of_le_of_lt hmm hx) (lt_irrefl _)
    · exact absurd (lt_of_le_of_lt hmm (h1 y hy2)) (lt_irrefl _)
  · apply List.all_eq_true.mpr
    intro y hy
    rcases List.mem_append.mp hy with hy2 | hy2
    · rcases List.mem_cons.mp hy2 with rfl | hy3
      · exact decide_eq_true (le_of_lt hx)
      · exact decide_eq_true (le_of_lt (h1 y hy3))
    · rcases List.mem_cons.mp hy2 with rfl | hy3
      · exact decide_eq_true (le_refl _)
      · exact decide_eq_true (h2 y hy3)

theorem pyMax_eq_firstMax (l : List (PyStr × ℚ)) : pyMax l = firstMax l := by
  cases l with
  | nil => rfl
  | cons x t =>
    rcases foldMax_spec t x with ⟨hm, hall⟩ | ⟨t1, m, t2, ht, hm, hbm, h1, h2⟩
    · have hx : ((x :: t).all fun y => decide (y.2 ≤ x.2)) = true := by
        apply List.all_eq_true.mpr
        intro y hy
        rcases List.mem_cons.mp hy with rfl | hy2
        · exact decide_eq_true (le_refl _)
        · exact decide_eq_true (hall y hy2)
      simp only [pyMax, hm, firstMax, List.find?_cons, hx]
    · subst ht
      have hpy : pyMax (x :: (t1 ++ m :: t2)) = some m := by
        simp only [pyMax]
        rw [hm]
      rw [hpy, firstMax_eq_of_split x m t1 t2 hbm h1 h2]

/-! ## Lookup in `final_predictions` -/

theorem dictGet?_eq_none_of_not_mem {α : Type} {d : List (PyStr × α)} {k : PyStr}
    (h : k ∉ d.map Prod.fst) : dictGet? d k = none := by
  induction d with
  | nil => rfl
  | cons kv t ih =>
    simp only [List.map_cons, List.mem_cons] at h
    push_neg at h
    simp only [dictGet?, beq_iff_eq]
    rw [if_neg fun hh => h.1 hh.symm]
    exact ih h.2

theorem keys_finalPredictions_sub {ps : List (PyStr × List ℚ)} {k : PyStr}
    (h : k ∈ (finalPredictions ps).map Prod.fst) : k ∈ ps.map Prod.fst := by
  rcases List.mem_map.mp h with ⟨e, he, rfl⟩
  rcases List.mem_filterMap.mp he with ⟨c, hc, hce⟩
  by_cases htop : ((sortDesc c.2).take 3).isEmpty = true
  · rw [if_pos htop] at hce
    exact absurd hce (by simp)
  · rw [if_neg htop] at hce
    have : e = (c.1, listMean ((sortDesc c.2).take 3)) := (Option.some_injective _ hce).symm
    rw [this]
    exact List.mem_map.mpr ⟨c, hc, rfl⟩

/-- Every entry of `final_predictions` comes from an entry of `pred_scores`
and carries the mean of its top 3 scores. -/
theorem mem_finalPredictions {ps : List (PyStr × List ℚ)} {e : PyStr × ℚ}
    (h : e ∈ finalPredictions ps) :
    ∃ c ∈ ps, e.1 = c.1 ∧ e.2 = listMean ((sortDesc c.2).take 3) ∧
      ((sortDesc c.2).take 3).isEmpty = false := by
  rcases List.mem_filterMap.mp h with ⟨c, hc, hce⟩
  by_cases htop : ((sortDesc c.2).take 3).isEmpty = true
  · rw [if_pos htop] at hce
    exact absurd hce (by simp)
  · rw [if_neg htop] at hce
    have he : e = (c.1, listMean ((sortDesc c.2).take 3)) := (Option.some_injective _ hce).symm
    exact ⟨c, hc, by rw [he], by rw [he], Bool.eq_false_iff.mpr htop⟩

theorem dictGet?_finalPredictions {ps : List (PyStr × List ℚ)}
    (hnd : (ps.map Prod.fst).Nodup) (cat : PyStr) :
    dictGet? (finalPredictions ps) cat =
      match dictGet? ps cat with
      | none => none
      | some scores =>
        if ((sortDesc scores).take 3).isEmpty then none
        else some (listMean ((sortDesc scores).take 3)) := by
  induction ps with
  | nil => rfl
  | cons c t ih =>
    simp only [List.map_cons, List.nodup_cons] at hnd
    by_cases hk : c.1 = cat
    · have hhead : dictGet? (c :: t) cat = some c.2 := by
        simp [dictGet?, hk]
      rw [hhead]
      by_cases htop : ((sortDesc c.2).take 3).isEmpty = true
      · have hfp : finalPredictions (c :: t) = finalPredictions t := by
          simp only [finalPredictions, List.filterMap_cons, htop, if_true]
        rw [hfp]
        have hnot : cat ∉ (finalPredictions t).map Prod.fst := by
          intro hcon
          exact hnd.1 (hk ▸ keys_finalPredictions_sub hcon)
        rw [dictGet?_eq_none_of_not_mem hnot]
        simp [htop]
      · have hfp : finalPredictions (c :: t) =
            (c.1, listMean ((sortDesc c.2).take 3)) :: finalPredictions t := by
          have htop2 : ¬ sortDesc c.2 = [] := fun hcon => htop (by simp [hcon])
          simp [finalPredictions, List.filterMap_cons, htop2]
        rw [hfp]
        simp [dictGet?, hk, htop]
    · have hhead : dictGet? (c :: t) cat = dictGet? t cat := by
        simp [dictGet?, hk]
      rw [hhead, ← ih hnd.2]
      by_cases htop : ((sortDesc c.2).take 3).isEmpty = true
      · simp only [finalPredictions, List.filterMap_cons, htop, if_true]
      · simp only [finalPredictions, List.filterMap_cons, htop, if_false]
        simp [dictGet?, hk]

/-! ## Claims -/

/-- Coverage of the animal keyword lists: every keyword contains, in lowered
form, an already-lowercase keyword of the same category.  (Keywords holding
uppercase letters, e.g. `African_elephant`, can themselves never occur in a
lowercased label, but their lowercase core keyword can.) -/
theorem animal_keyword_coverage : ∀ c ∈ ANIMAL_CATEGORIES, ∀ k ∈ c.2,
    ∃ k2 ∈ c.2, pyLower k2 = k2 ∧ isSub k2 (pyLower k) = true := by decide

/-- C1: for every raw prediction label and every category of the animal map,
the code's test (some keyword occurring verbatim inside the lowercased label)
holds iff some keyword of that category is a case-insensitive substring of
the raw label (both sides lowercased); the test is per category, so one
label may satisfy it for several categories. -/
theorem c1_keyword_match_iff (label : PyStr) (c : PyStr × List PyStr)
    (hc : c ∈ ANIMAL_CATEGORIES) :
    catMatches c.2 label = true ↔
      ∃ k ∈ c.2, isSub (pyLower k) (pyLower label) = true := by
  constructor
  · intro h
    rcases List.any_eq_true.mp h with ⟨k, hk, hsub⟩
    exact ⟨k, hk, isSub_pyLower_of_isSub hsub⟩
  · rintro ⟨k, hk, hsub⟩
    rcases animal_keyword_coverage c hc k hk with ⟨k2, hk2, hlow, hsub2⟩
    exact List.any_eq_true.mpr ⟨k2, hk2, isSub_trans hsub2 hsub⟩

theorem c1_keyword_match_iff_witness :
    (catMatches (pyStr "elephant", [pyStr "elephant", pyStr "African_elephant",
        pyStr "Indian_elephant", pyStr "tusker"]).2 (pyStr "African_elephant") = true ↔
      ∃ k ∈ (pyStr "elephant", [pyStr "elephant", pyStr "African_elephant",
        pyStr "Indian_elephant", pyStr "tusker"]).2,
        isSub (pyLower k) (pyLower (pyStr "African_elephant")) = true) :=
  c1_keyword_match_iff (pyStr "African_elephant") _ (by decide)

/-- The per-category resolution of the thresholds: the two configured
categories get their own value, all others fall back to the default. -/
theorem animalThreshold_resolution : ∀ cat ∈ ANIMAL_CATEGORIES.map Prod.fst,
    animalThreshold cat =
      (if cat = pyStr "lion_cub" then 3/10
       else if cat = pyStr "bird" then 2/5 else 7/20) := by
  intro cat hcat
  fin_cases hcat <;> rfl

/-- C3: with a detected category, the gate accepts iff the confidence
strictly exceeds the per-category threshold (falling back to the default
when the category has no entry); equality is rejected; the rename/tagging
branch of `process_single_image` runs exactly when the gate accepts. -/
theorem c3_threshold_gate (animal : PyStr) (conf : ℚ)
    (hmem : animal ∈ ANIMAL_CATEGORIES.map Prod.fst) :
    (thresholdGate (some animal) conf = true ↔ animalThreshold animal < conf) ∧
    thresholdGate (some animal) (animalThreshold animal) = false ∧
    (processSingleImage true (some animal) conf []).success
      = thresholdGate (some animal) conf ∧
    animalThreshold animal =
      (if animal = pyStr "lion_cub" then 3/10
       else if animal = pyStr "bird" then 2/5 else 7/20) := by
  refine ⟨?_, ?_, ?_, animalThreshold_resolution animal hmem⟩
  · simp [thresholdGate]
  · simp [thresholdGate]
  · by_cases hg : thresholdGate (some animal) conf = true
    · simp [processSingleImage, hg]
    · rw [Bool.not_eq_true] at hg
      simp [processSingleImage, hg]

theorem c3_threshold_gate_witness :
    ((thresholdGate (some (pyStr "bird")) (1/2) = true ↔
        animalThreshold (pyStr "bird") < 1/2) ∧
      thresholdGate (some (pyStr "bird")) (animalThreshold (pyStr "bird")) = false ∧
      (processSingleImage true (some (pyStr "bird")) (1/2) []).success
        = thresholdGate (some (pyStr "bird")) (1/2) ∧
      animalThreshold (pyStr "bird") =
        (if pyStr "bird" = pyStr "lion_cub" then 3/10
         else if pyStr "bird" = pyStr "bird" then 2/5 else 7/20)) :=
  c3_threshold_gate (pyStr "bird") (1/2) (by decide)

/-- Any classifier failure makes the prediction loop raise past all later
(and all earlier) classifiers. -/
theorem gatherPredictions_eq_none (runs : List (Option (List Pred))) :
    none ∈ runs → gatherPredictions runs = none := by
  induction runs with
  | nil => intro h; simp at h
  | cons r t ih =>
    intro h
    cases r with
    | none => rfl
    | some ps =>
      have ht : none ∈ t := by
        rcases List.mem_cons.mp h with h1 | h1
        · exact absurd h1 (by simp)
        · exact h1
      simp [gatherPredictions, ih ht]

/-- C4 (amended): when any classifier fails on an image, `_predict_animal`
returns `(None, 0.0)` for that image — the predictions of the other
classifiers are discarded rather than aggregated. -/
theorem c4_failure_discards_all (cats : CatMap) (runs : List (Option (List Pred)))
    (h : none ∈ runs) : predictAnimalRuns cats runs = (none, 0) := by
  simp [predictAnimalRuns, gatherPredictions_eq_none runs h]

theorem c4_failure_discards_all_witness :
    predictAnimalRuns ANIMAL_CATEGORIES [none, some [(pyStr "lion", 9/10)]] = (none, 0) :=
  c4_failure_discards_all ANIMAL_CATEGORIES [none, some [(pyStr "lion", 9/10)]] (by simp)

/-- C4 counterexample: the first classifier fails and the second returns
`("lion", 0.9)`; the code yields `(None, 0.0)`, not the aggregation
`(lion, 0.9)` of the surviving classifier's predictions as the claim
requires. -/
theorem c4_counterexample :
    predictAnimalRuns ANIMAL_CATEGORIES [none, some [(pyStr "lion", 9/10)]] = (none, 0) ∧
    predictAnimal ANIMAL_CATEGORIES [(pyStr "lion", 9/10)]
      = (some (pyStr "lion"), 9/10) ∧
    predictAnimalRuns ANIMAL_CATEGORIES [none, some [(pyStr "lion", 9/10)]]
      ≠ predictAnimal ANIMAL_CATEGORIES [(pyStr "lion", 9/10)] := by
  have h2 : predictAnimal ANIMAL_CATEGORIES [(pyStr "lion", 9/10)]
      = (some (pyStr "lion"), 9/10) := by
    norm_num +decide [predictAnimal, predScores, recordPred, dictAppend, catMatches,
      ANIMAL_CATEGORIES]
    norm_num [finalPredictions, List.filterMap_cons, sortDesc, insDesc]
    try simp
    try norm_num [listMean, pyMax, stepMax]
  have h1 : predictAnimalRuns ANIMAL_CATEGORIES [none, some [(pyStr "lion", 9/10)]]
      = (none, 0) := rfl
  refine ⟨h1, h2, ?_⟩
  rw [h1, h2]
  intro hcon
  exact Option.noConfusion (congrArg Prod.fst hcon)

theorem recordPred_eq_of_no_match (cats : CatMap) (ps : List (PyStr × List ℚ))
    (p : Pred) (h : ∀ c ∈ cats, catMatches c.2 p.1 = false) :
    recordPred cats ps p = ps := by
  induction cats generalizing ps with
  | nil => rfl
  | cons c t ih =>
    simp only [recordPred, List.foldl_cons]
    rw [h c (by simp)]
    simp only [Bool.false_eq_true, if_false]
    exact ih ps fun c2 hc2 => h c2 (by simp [hc2])

theorem predScores_eq_nil_of_no_match (cats : CatMap) :
    ∀ preds : List Pred, (∀ p ∈ preds, ∀ c ∈ cats, catMatches c.2 p.1 = false) →
      predScores cats preds = [] := by
  intro preds
  induction preds with
  | nil => intro h; rfl
  | cons p t ih =>
    intro h
    show t.foldl (recordPred cats) (recordPred cats [] p) = []
    rw [recordPred_eq_of_no_match cats [] p (h p (by simp))]
    exact ih fun q hq => h q (by simp [hq])

/-- C5: when no raw label matches any keyword of any category, the
aggregated-score dict is empty and the result is `(None, 0.0)`. -/
theorem c5_no_match_result (preds : List Pred)
    (h : ∀ p ∈ preds, ∀ c ∈ ANIMAL_CATEGORIES, catMatches c.2 p.1 = false) :
    finalPredictions (predScores ANIMAL_CATEGORIES preds) = [] ∧
    predictAnimal ANIMAL_CATEGORIES preds = (none, 0) := by
  have hps := predScores_eq_nil_of_no_match ANIMAL_CATEGORIES preds h
  constructor
  · rw [hps]; rfl
  · simp [predictAnimal, hps, finalPredictions, pyMax]

theorem c5_no_match_result_witness :
    finalPredictions (predScores ANIMAL_CATEGORIES [(pyStr "car", 1/2)]) = [] ∧
    predictAnimal ANIMAL_CATEGORIES [(pyStr "car", 1/2)] = (none, 0) :=
  c5_no_match_result [(pyStr "car", 1/2)] (by decide)

/-- C7: the aggregation from a raw prediction list to the per-category score
dict and the final decision is a pure function of the prediction list — two
runs on the same list give the same result. -/
theorem c7_aggregator_deterministic (cats : CatMap) (preds1 preds2 : List Pred)
    (h : preds1 = preds2) :
    finalPredictions (predScores cats preds1)
        = finalPredictions (predScores cats preds2) ∧
    predictAnimal cats preds1 = predictAnimal cats preds2 := by
  subst h
  exact ⟨rfl, rfl⟩

theorem c7_aggregator_deterministic_witness :
    finalPredictions (predScores ANIMAL_CATEGORIES [(pyStr "lion", 1)])
        = finalPredictions (predScores ANIMAL_CATEGORIES [(pyStr "lion", 1)]) ∧
    predictAnimal ANIMAL_CATEGORIES [(pyStr "lion", 1)]
        = predictAnimal ANIMAL_CATEGORIES [(pyStr "lion", 1)] :=
  c7_aggregator_deterministic ANIMAL_CATEGORIES [(pyStr "lion", 1)]
    [(pyStr "lion", 1)] rfl

/-- C9: when the prediction is rejected (no category, or confidence not
strictly above the applicable threshold) and the backup succeeded, the image
is neither renamed nor given metadata, no new name is assigned, and the
result record carries `success=False` and `error="Low confidence
prediction"`. -/
theorem c9_rejected_image_untouched (animal : Option PyStr) (conf : ℚ)
    (landscape : List PyStr) (hrej : thresholdGate animal conf = false) :
    (processSingleImage true animal conf landscape).success = false ∧
    (processSingleImage true animal conf landscape).renamed = false ∧
    (processSingleImage true animal conf landscape).metadataWritten = false ∧
    (processSingleImage true animal conf landscape).newNameAssigned = false ∧
    (processSingleImage true animal conf landscape).error
      = some (pyStr "Low confidence prediction") := by
  simp [processSingleImage, hrej]

theorem c9_rejected_image_untouched_witness :
    (processSingleImage true none (1/2) []).success = false ∧
    (processSingleImage true none (1/2) []).renamed = false ∧
    (processSingleImage true none (1/2) []).metadataWritten = false ∧
    (processSingleImage true none (1/2) []).newNameAssigned = false ∧
    (processSingleImage true none (1/2) []).error
      = some (pyStr "Low confidence prediction") :=
  c9_rejected_image_untouched none (1/2) [] rfl

/-- The animal category names are pairwise distinct. -/
theorem animal_keys_nodup : (ANIMAL_CATEGORIES.map Prod.fst).Nodup := by decide

/-- C2: for every category with at least one matching prediction, the
aggregated score is the arithmetic mean of the top 3 matching confidences:
the matching confidences split (up to permutation) into `top ++ rest` with
`top` of size `min 3 n`, every element of `top` at least every element of
`rest`, and the category's aggregated score equal to `listMean top` (the
mean of all confidences when fewer than 3 exist, since then `rest = []`). -/
theorem c2_top3_mean (preds : List Pred) (cat : PyStr) (kws : List PyStr)
    (hmem : (cat, kws) ∈ ANIMAL_CATEGORIES)
    (hne : matchedConfs kws preds ≠ []) :
    ∃ top rest, (top ++ rest).Perm (matchedConfs kws preds) ∧
      top.length = min 3 (matchedConfs kws preds).length ∧
      (∀ x ∈ top, ∀ y ∈ rest, y ≤ x) ∧
      dictGet? (finalPredictions (predScores ANIMAL_CATEGORIES preds)) cat
        = some (listMean top) := by
  set m := matchedConfs kws preds with hmdef
  refine ⟨(sortDesc m).take 3, (sortDesc m).drop 3, ?_, ?_, ?_, ?_⟩
  · rw [List.take_append_drop]
    exact sortDesc_perm m
  · rw [List.length_take, (sortDesc_perm m).length_eq]
  · intro x hx y hy
    have hs := sortDesc_sorted m
    rw [← List.take_append_drop 3 (sortDesc m)] at hs
    exact (List.pairwise_append.mp hs).2.2 x hx y hy
  · rw [dictGet?_finalPredictions (predScores_keys_nodup _ _) cat]
    rw [dictGet?_predScores ANIMAL_CATEGORIES animal_keys_nodup hmem preds]
    rw [if_neg hne]
    have hsd : sortDesc m ≠ [] := by
      intro hcon
      exact hne (List.eq_nil_of_length_eq_zero
        (by rw [← (sortDesc_perm m).length_eq, hcon]; rfl))
    have htop : ((sortDesc m).take 3).isEmpty = false := by
      cases hcase : sortDesc m with
      | nil => exact absurd hcase hsd
      | cons a l => simp [hcase]
    simp [htop]

theorem c2_top3_mean_witness :
    predictAnimal ANIMAL_CATEGORIES
      [(pyStr "lion", 9/10), (pyStr "lion", 4/5), (pyStr "lion", 7/10),
       (pyStr "lion", 3/5), (pyStr "lion", 1/2)] = (some (pyStr "lion"), 4/5) ∧
    ∃ top rest,
      (top ++ rest).Perm (matchedConfs
        [pyStr "lion", pyStr "male_lion", pyStr "lioness", pyStr "African_lion"]
        [(pyStr "lion", 9/10), (pyStr "lion", 4/5), (pyStr "lion", 7/10),
         (pyStr "lion", 3/5), (pyStr "lion", 1/2)]) ∧
      top.length = min 3 (matchedConfs
        [pyStr "lion", pyStr "male_lion", pyStr "lioness", pyStr "African_lion"]
        [(pyStr "lion", 9/10), (pyStr "lion", 4/5), (pyStr "lion", 7/10),
         (pyStr "lion", 3/5), (pyStr "lion", 1/2)]).length ∧
      (∀ x ∈ top, ∀ y ∈ rest, y ≤ x) ∧
      dictGet? (finalPredictions (predScores ANIMAL_CATEGORIES
        [(pyStr "lion", 9/10), (pyStr "lion", 4/5), (pyStr "lion", 7/10),
         (pyStr "lion", 3/5), (pyStr "lion", 1/2)])) (pyStr "lion")
        = some (listMean top) := by
  constructor
  · norm_num +decide [predictAnimal, predScores, recordPred, dictAppend, catMatches,
      ANIMAL_CATEGORIES]
    norm_num [finalPredictions, List.filterMap_cons, sortDesc, insDesc]
    try simp
    try norm_num [listMean, pyMax, stepMax]
  · exact c2_top3_mean
      [(pyStr "lion", 9/10), (pyStr "lion", 4/5), (pyStr "lion", 7/10),
       (pyStr "lion", 3/5), (pyStr "lion", 1/2)]
      (pyStr "lion")
      [pyStr "lion", pyStr "male_lion", pyStr "lioness", pyStr "African_lion"]
      (by decide) (by decide)

/-- C6: with all raw confidences in `[0,1]`, every aggregated score lies in
`[0,1]`, and a category appears in the aggregated scores only if at least
one raw prediction matched its keywords. -/
theorem c6_aggregated_scores_bounded (preds : List Pred)
    (hconf : ∀ p ∈ preds, 0 ≤ p.2 ∧ p.2 ≤ 1) :
    ∀ e ∈ finalPredictions (predScores ANIMAL_CATEGORIES preds),
      (0 ≤ e.2 ∧ e.2 ≤ 1) ∧
      ∃ kws, (e.1, kws) ∈ ANIMAL_CATEGORIES ∧
        ∃ p ∈ preds, catMatches kws p.1 = true := by
  intro e he
  rcases mem_finalPredictions he with ⟨c, hc, he1, he2, htop⟩
  obtain ⟨cat, scores⟩ := c
  rcases mem_predScores ANIMAL_CATEGORIES animal_keys_nodup hc with ⟨kws, hkws, hsc, hne⟩
  simp only at he1 he2 htop
  constructor
  · have hmem_top : ∀ x ∈ (sortDesc scores).take 3, x ∈ scores := by
      intro x hx
      exact (sortDesc_perm scores).mem_iff.mp (List.mem_of_mem_take hx)
    have hbounds : ∀ x ∈ scores, 0 ≤ x ∧ x ≤ 1 := by
      intro x hx
      rw [hsc] at hx
      rcases List.mem_map.mp hx with ⟨p, hp, rfl⟩
      exact hconf p (List.mem_of_mem_filter hp)
    have htopne : (sortDesc scores).take 3 ≠ [] := by
      intro hcon
      rw [hcon] at htop
      simp at htop
    rw [he2]
    constructor
    · exact listMean_nonneg fun x hx => (hbounds x (hmem_top x hx)).1
    · exact listMean_le_one htopne fun x hx => (hbounds x (hmem_top x hx)).2
  · refine ⟨kws, he1 ▸ hkws, ?_⟩
    have hfil : (preds.filter fun p => catMatches kws p.1) ≠ [] := by
      intro hcon
      rw [hsc, matchedConfs, hcon] at hne
      exact hne rfl
    rcases List.exists_mem_of_ne_nil _ hfil with ⟨p, hp⟩
    rcases List.mem_filter.mp hp with ⟨hpm, hpq⟩
    exact ⟨p, hpm, hpq⟩

theorem c6_aggregated_scores_bounded_witness :
    (0 ≤ ((pyStr "lion" : PyStr), (1 : ℚ)).2 ∧ ((pyStr "lion" : PyStr), (1 : ℚ)).2 ≤ 1) ∧
    ∃ kws, (((pyStr "lion" : PyStr), (1 : ℚ)).1, kws) ∈ ANIMAL_CATEGORIES ∧
      ∃ p ∈ [((pyStr "lion" : PyStr), (1 : ℚ))], catMatches kws p.1 = true := by
  have heval : finalPredictions (predScores ANIMAL_CATEGORIES [(pyStr "lion", 1)])
      = [(pyStr "lion", 1)] := by
    norm_num +decide [predScores, recordPred, dictAppend, catMatches, ANIMAL_CATEGORIES]
    norm_num [finalPredictions, List.filterMap_cons, sortDesc, insDesc]
    try simp
    try norm_num [listMean]
  have hmem : ((pyStr "lion" : PyStr), (1 : ℚ)) ∈
      finalPredictions (predScores ANIMAL_CATEGORIES [(pyStr "lion", 1)]) := by
    rw [heval]
    exact List.mem_singleton.mpr rfl
  exact c6_aggregated_scores_bounded [(pyStr "lion", 1)] (by decide) _ hmem

/-- C8: the final decision is the argmax of the aggregated scores with ties
broken by the earliest entry of the aggregated-score dict — the category
seen first during aggregation; concretely, a tie between zebra (matched
first) and elephant (listed earlier in the category map) goes to zebra. -/
theorem c8_argmax_first_seen :
    (∀ (cats : CatMap) (preds : List Pred),
      predictAnimal cats preds =
        match firstMax (finalPredictions (predScores cats preds)) with
        | some c => (some c.1, c.2)
        | none => (none, 0)) ∧
    predictAnimal ANIMAL_CATEGORIES [(pyStr "zebra", 1/2), (pyStr "elephant", 1/2)]
      = (some (pyStr "zebra"), 1/2) := by
  constructor
  · intro cats preds
    simp only [predictAnimal]
    rw [pyMax_eq_firstMax]
  · norm_num +decide [predictAnimal, predScores, recordPred, dictAppend, catMatches,
      ANIMAL_CATEGORIES]
    norm_num [finalPredictions, List.filterMap_cons, sortDesc, insDesc]
    try simp
    try norm_num [listMean, pyMax, stepMax]

/-- Inner category loop of `_predict_landscape`: it keeps the feature list
duplicate-free and only ever appends features justified by the current
prediction. -/
theorem landscape_inner_inv (p : Pred) (J : PyStr → Prop) :
    ∀ lcats : CatMap,
      (∀ c ∈ lcats, catMatches c.2 p.1 = true → landscapeThreshold < p.2 → J c.1) →
      ∀ acc : List PyStr, acc.Nodup → (∀ f ∈ acc, J f) →
        (lcats.foldl (landscapeStep p) acc).Nodup ∧
        ∀ f ∈ lcats.foldl (landscapeStep p) acc, J f := by
  intro lcats
  induction lcats with
  | nil => exact fun _ acc h1 h2 => ⟨h1, h2⟩
  | cons c t ih =>
    intro hJ acc h1 h2
    simp only [List.foldl_cons]
    have hstep : (landscapeStep p acc c).Nodup ∧ ∀ f ∈ landscapeStep p acc c, J f := by
      unfold landscapeStep
      split
      · rename_i hm
        split
        · rename_i hcond
          constructor
          · simp [List.nodup_append, h1, hcond.2]
          · intro f hf
            rcases List.mem_append.mp hf with hf1 | hf1
            · exact h2 f hf1
            · rcases List.mem_singleton.mp hf1 with rfl
              exact hJ c (by simp) hm hcond.1
        · exact ⟨h1, h2⟩
      · exact ⟨h1, h2⟩
    exact ih (fun c2 hc2 => hJ c2 (by simp [hc2])) _ hstep.1 hstep.2

/-- C10: the landscape feature list has no duplicates; every feature is a
key of the landscape category map; every feature was triggered by some
prediction whose label contains one of the category's keywords with
confidence strictly above the landscape threshold, which is 0.15. -/
theorem c10_landscape_features (preds : List Pred) :
    (predictLandscape LANDSCAPE_CATEGORIES preds).Nodup ∧
    (∀ f ∈ predictLandscape LANDSCAPE_CATEGORIES preds,
      f ∈ LANDSCAPE_CATEGORIES.map Prod.fst ∧
      ∃ kws, (f, kws) ∈ LANDSCAPE_CATEGORIES ∧
        ∃ p ∈ preds, catMatches kws p.1 = true ∧ landscapeThreshold < p.2) ∧
    landscapeThreshold = 3/20 := by
  have hgen : ∀ rest : List Pred, (∀ p ∈ rest, p ∈ preds) →
      ∀ acc : List PyStr, acc.Nodup →
      (∀ f ∈ acc, ∃ kws, (f, kws) ∈ LANDSCAPE_CATEGORIES ∧
        ∃ p ∈ preds, catMatches kws p.1 = true ∧ landscapeThreshold < p.2) →
      (rest.foldl (fun feats p => LANDSCAPE_CATEGORIES.foldl (landscapeStep p) feats)
        acc).Nodup ∧
      ∀ f ∈ rest.foldl (fun feats p => LANDSCAPE_CATEGORIES.foldl (landscapeStep p) feats)
        acc, ∃ kws, (f, kws) ∈ LANDSCAPE_CATEGORIES ∧
        ∃ p ∈ preds, catMatches kws p.1 = true ∧ landscapeThreshold < p.2 := by
    intro rest
    induction rest with
    | nil => exact fun _ acc h1 h2 => ⟨h1, h2⟩
    | cons p t ih =>
      intro hsub acc h1 h2
      simp only [List.foldl_cons]
      have hp : p ∈ preds := hsub p (by simp)
      have hstep := landscape_inner_inv p
        (fun f => ∃ kws, (f, kws) ∈ LANDSCAPE_CATEGORIES ∧
          ∃ q ∈ preds, catMatches kws q.1 = true ∧ landscapeThreshold < q.2)
        LANDSCAPE_CATEGORIES
        (fun c hc hm hthr => ⟨c.2, by rw [Prod.mk.eta]; exact hc, p, hp, hm, hthr⟩)
        acc h1 h2
      exact ih (fun q hq => hsub q (by simp [hq])) _ hstep.1 hstep.2
  have hmain := hgen preds (fun p hp => hp) [] List.nodup_nil (by simp)
  refine ⟨hmain.1, ?_, rfl⟩
  intro f hf
  rcases hmain.2 f hf with ⟨kws, hkws, hex⟩
  exact ⟨List.mem_map.mpr ⟨(f, kws), hkws, rfl⟩, kws, hkws, hex⟩

theorem c10_landscape_features_witness :
    pyStr "river" ∈ predictLandscape LANDSCAPE_CATEGORIES [(pyStr "riverbank", 1)] ∧
    (pyStr "river" ∈ LANDSCAPE_CATEGORIES.map Prod.fst ∧
      ∃ kws, (pyStr "river", kws) ∈ LANDSCAPE_CATEGORIES ∧
        ∃ p ∈ [((pyStr "riverbank" : PyStr), (1 : ℚ))],
          catMatches kws p.1 = true ∧ landscapeThreshold < p.2) := by
  have heval : predictLandscape LANDSCAPE_CATEGORIES [(pyStr "riverbank", 1)]
      = [pyStr "river"] := by
    norm_num +decide [predictLandscape, landscapeStep, catMatches,
      LANDSCAPE_CATEGORIES, landscapeThreshold, dictGetD, dictGet?,
      CONFIDENCE_THRESHOLDS]
  have hmem : pyStr "river" ∈ predictLandscape LANDSCAPE_CATEGORIES
      [(pyStr "riverbank", 1)] := by
    rw [heval]
    exact List.mem_singleton.mpr rfl
  exact ⟨hmem, (c10_landscape_features [(pyStr "riverbank", 1)]).2.1 _ hmem⟩
